import Mathlib

set_option maxHeartbeats 1000000

/-!
Verification of the SGE job-dependency scheduler in pyani (pyani/run_sge.py).

The Job and JobGroup classes live in pyani/pyani_jobs.py, which is not part of
the sources here; their fields are modelled from the specification (data model,
section 3): a Job has a unique name, a unique filesystem index, a command, a
list of references to dependency Jobs, and mutable scheduler state (submitted
flag, script path, stdout path, stderr path).  Because names are unique within
a run, a reference to a dependency Job is modelled by the name of that job, and
the mutable submitted flag of all jobs is modelled by a map from job names to
Bool that is threaded through the scheduler functions.  The class distinction
Job versus JobGroup (tested in the source with isinstance) is modelled by the
Boolean field isGroup together with the JobGroup task count.
-/

/-- Model of os.path.join for the relative path components used in run_sge.py. -/
def pjoin (a b : String) : String :=
  if b.startsWith "/" then b
  else if a = "" then b
  else if a.endsWith "/" then a ++ b
  else a ++ "/" ++ b

/-- Python string slicing s[:-1] (drop the final character). -/
def pyDropLast (s : String) : String := String.mk s.data.dropLast

/-- Modelled from the spec: pyani_config.QSUB_DEFAULT, the configurable base
submission command of the cluster adapter (pyani_config.py is not among the
sources; the spec calls it a configurable base command). -/
def QSUB_DEFAULT : String := "qsub"

/-- Modelled from the spec: the Job / JobGroup record of pyani_jobs.py.
Dependencies are recorded as the names of the dependency jobs; the submitted
flag lives in a separate name-indexed map (see the file header). -/
structure SJob where
  name : String
  command : String
  queue : Option String
  index : String
  deps : List String
  isGroup : Bool
  tasks : Nat
  script : String
  scriptpath : String
  out : String
  err : String
deriving DecidableEq, Repr

/-- Modelled from the spec: the Job constructor Job(name, command, queue) of
pyani_jobs.py sets script := command, an empty dependency list and no scheduler
state.  The filesystem index is modelled by the job name (both are unique per
run by the data-model invariants). -/
def mkJob (name command : String) (queue : Option String) : SJob :=
  { name := name, command := command, queue := queue, index := name,
    deps := [], isGroup := false, tasks := 0, script := command,
    scriptpath := "", out := "", err := "" }

/-- Order-preserving duplicate-free insertion; models adding to a Python set
(job objects are hashed by identity, and identity coincides with value
equality here because names are unique per run). -/
def insertS (j : SJob) (s : List SJob) : List SJob := if j ∈ s then s else s ++ [j]

/-- run_sge.extract_submittable_jobs: collect every waiting job all of whose
dependencies have submitted == True (the source counts the unsatisfied
dependencies and keeps the job when the count is zero, accumulating into a
set that is finally turned into a list). -/
def extract_submittable_jobs (sub : String → Bool) (waiting : List SJob) : List SJob :=
  waiting.foldl
    (fun acc job => if job.deps.countP (fun d => !sub d) = 0 then insertS job acc else acc)
    []

/-- Setting the submitted flag of one job (job.submitted = True). -/
def setSub (sub : String → Bool) (n : String) : String → Bool :=
  fun m => if m = n then true else sub m

/-- job.out as assigned in run_sge.submit_safe_jobs. -/
def job_out_path (root : String) (job : SJob) : String :=
  pjoin root ("sge/stdout/" ++ job.index)

/-- job.err as assigned in run_sge.submit_safe_jobs. -/
def job_err_path (root : String) (job : SJob) : String :=
  pjoin root ("sge/stderr/" ++ job.index)

/-- The args string built in the loop body of run_sge.submit_safe_jobs for one
job whose out and err fields have already been assigned: job name, current
working directory flag, stdout and stderr redirects, the task range when the
job is a JobGroup, and the hold list built by appending each dependency name
followed by a comma and then stripping the final character (args[:-1]). -/
def qsub_args (job : SJob) : String :=
  let a1 := " -N " ++ job.name ++ " "
  let a2 := a1 ++ " -cwd "
  let a3 := a2 ++ " -o " ++ job.out ++ " -e " ++ job.err ++ " "
  let a4 := if job.isGroup then a3 ++ "-t 1:" ++ toString job.tasks ++ " " else a3
  if job.deps.length > 0 then
    pyDropLast (job.deps.foldl (fun a d => a ++ d ++ ",") (a4 ++ "-hold_jid "))
  else a4

/-- The qsub command line of run_sge.submit_safe_jobs: base command, the -V
environment-propagation flag, the args string, and, only when extra scheduler
arguments are supplied, those arguments followed by the script path. -/
def qsub_cmd (sgeargs : Option String) (job : SJob) : String :=
  let c := QSUB_DEFAULT ++ " -V " ++ qsub_args job
  match sgeargs with
  | some sa => c ++ " " ++ sa ++ " " ++ job.scriptpath
  | none => c

/-- run_sge.submit_safe_jobs.  Returns the processed jobs with their out and
err fields assigned, the executed qsub command lines in order, and the updated
submitted map.  sysRet models the exit status returned by os.system, which the
source discards without looking at it. -/
def submit_safe_jobs (root : String) (sgeargs : Option String) (sysRet : String → Int) :
    List SJob → (String → Bool) → List SJob × List String × (String → Bool)
  | [], sub => ([], [], sub)
  | job :: rest, sub =>
    let j2 : SJob := { job with out := job_out_path root job, err := job_err_path root job }
    let cmd := qsub_cmd sgeargs j2
    let _status : Int := sysRet cmd
    let sub2 := setSub sub job.name
    let r := submit_safe_jobs root sgeargs sysRet rest sub2
    (j2 :: r.1, cmd :: r.2.1, r.2.2)

/-- Python list.remove: delete the first occurrence (identity equality on Job
objects, value equality here); no-op when absent, which never happens in the
submission loop because the extracted jobs come from the waiting list. -/
def removeFirst (j : SJob) : List SJob → List SJob
  | [] => []
  | x :: xs => if x = j then xs else x :: removeFirst j xs

/-- The removal loop: for job in submittable: waiting.remove(job). -/
def removeAll (waiting subm : List SJob) : List SJob :=
  subm.foldl (fun w j => removeFirst j w) waiting

/-- The while-loop of run_sge.submit_jobs.  fuel bounds the number of
iterations (the source loop has no bound and can run forever when no waiting
job is submittable); acc records the submitted wave of every iteration, so a
some result means the loop exited with the waiting list empty and the wave
list tells how many iterations ran. -/
def submit_jobs_waves (root : String) (sgeargs : Option String) (sysRet : String → Int) :
    Nat → (String → Bool) → List SJob → List (List SJob) →
    Option ((String → Bool) × List (List SJob))
  | 0, sub, waiting, acc => if waiting.isEmpty then some (sub, acc) else none
  | fuel + 1, sub, waiting, acc =>
    if waiting.isEmpty then some (sub, acc)
    else
      let submittable := extract_submittable_jobs sub waiting
      let sub2 := (submit_safe_jobs root sgeargs sysRet submittable sub).2.2
      submit_jobs_waves root sgeargs sysRet fuel sub2 (removeAll waiting submittable)
        (acc ++ [submittable])

/-- Look a job up by name (dependency references are names, see header). -/
def findJob (jobs : List SJob) (n : String) : Option SJob :=
  jobs.find? (fun j => j.name == n)

/-- Height of a job in the dependency graph, computed with a recursion budget:
1 for a job without dependencies, one more than the tallest dependency
otherwise.  Unknown names have height 0. -/
def heightF (jobs : List SJob) : Nat → String → Nat
  | 0, _ => 0
  | fuel + 1, n =>
    match findJob jobs n with
    | none => 0
    | some j => 1 + (j.deps.map (heightF jobs fuel)).foldr max 0

/-- Stable height: on a dependency graph that is acyclic and closed inside
jobs, a budget of jobs.length is enough (chains cannot be longer). -/
def jobHeight (jobs : List SJob) (n : String) : Nat := heightF jobs jobs.length n

/-- Depth of the dependency graph: the largest job height, i.e. the length of
the longest dependency chain. -/
def depthOf (jobs : List SJob) : Nat :=
  (jobs.map (fun j => jobHeight jobs j.name)).foldr max 0

/-- The submitted map after the waves numbered 1..k: exactly the jobs of
height at most k are submitted. -/
def subAt (jobs : List SJob) (k : Nat) : String → Bool :=
  fun n => jobs.any (fun j => j.name == n && decide (jobHeight jobs j.name ≤ k))

/-- The waiting list after the waves numbered 1..k: the jobs of height
greater than k, in their original order. -/
def waitAt (jobs : List SJob) (k : Nat) : List SJob :=
  jobs.filter (fun j => decide (k < jobHeight jobs j.name))

/-- Wave i of the submission loop (1-based height k + i + 1), for i < m. -/
def wavesFrom (jobs : List SJob) (k m : Nat) : List (List SJob) :=
  (List.range m).map (fun i => jobs.filter (fun j => decide (jobHeight jobs j.name = k + i + 1)))

/-- The script text written by run_sge.build_job_scripts:
"#!/bin/sh\n#$ -S /bin/bash\n%s\n" % job.script. -/
def script_content (job : SJob) : String :=
  "#!/bin/sh\n#$ -S /bin/bash\n" ++ job.script ++ "\n"

/-- The loop body of run_sge.build_job_scripts for one job: the written file
(path and content) and the job with its scriptpath field assigned. -/
def build_job_script_one (root : String) (job : SJob) : (String × String) × SJob :=
  let job_dir := pjoin root "sge/jobs"
  let spath := pjoin (pjoin job_dir job.index) job.name
  ((spath, script_content job), { job with scriptpath := spath })

/-- run_sge.build_job_scripts: the files written (in order) and the updated
jobs. -/
def build_job_scripts (root : String) (jobs : List SJob) :
    List (String × String) × List SJob :=
  (jobs.map (fun j => (build_job_script_one root j).1),
   jobs.map (fun j => (build_job_script_one root j).2))

/-- run_sge.split_seq: chunk a list into pieces of the given size (islice
yields nothing when the size is zero or the list is exhausted). -/
def split_seq {α : Type} (l : List α) (size : Nat) : List (List α) :=
  if h : size = 0 ∨ l.isEmpty then []
  else l.take size :: split_seq (l.drop size) size
termination_by l.length
decreasing_by
  push_neg at h
  obtain ⟨h1, h2⟩ := h
  have hl : l ≠ [] := by
    intro he
    subst he
    simp at h2
  have : 0 < l.length := List.length_pos.mpr hl
  simp only [List.length_drop]
  omega

/-- The string accumulation sge_jobcmds += jc + "\n" over one chunk, starting
from the empty string. -/
def joined_cmds (sublist : List String) : String :=
  sublist.foldl (fun a c => a ++ c ++ "\n") ""

/-- The chunk loop of run_sge.compile_jobgroups_from_joblist with its running
count (count += 1 happens before the name "%s_%d" % (jgpref, count) is
formatted, hence count + 1). -/
def compile_aux (jgpref : String) : List (List String) → Nat → List SJob
  | [], _ => []
  | sublist :: rest, count =>
      mkJob (jgpref ++ "_" ++ toString (count + 1)) (joined_cmds sublist) (some "0")
        :: compile_aux jgpref rest (count + 1)

/-- run_sge.compile_jobgroups_from_joblist on a list of command strings (the
contract input of the group compiler): chunk the list, join each chunk with
newlines and wrap it in a plain Job named "%s_%d" % (jgpref, count) with queue
"0".  Note that the source constructs Job, not JobGroup. -/
def compile_jobgroups_from_joblist (joblist : List String) (jgpref : String)
    (sgegroupsize : Nat) : List SJob :=
  compile_aux jgpref (split_seq joblist sgegroupsize) 0

/-- Comma-separated join of a list of names. -/
def commaJoin : List String → String
  | [] => ""
  | [d] => d
  | d :: e :: rest => d ++ "," ++ commaJoin (e :: rest)

/-- The submitted-map view of one call to submit_safe_jobs (the only part of
its state the submission loop reads back). -/
def markSubmitted (names : List String) (sub : String → Bool) : String → Bool :=
  fun n => if names.contains n then true else sub n

/-!
The dependency-graph resolver (run_sge.build_joblist / populate_jobset)
traverses Job objects whose dependency fields hold further Job objects.  For
the resolver this object graph is modelled as a finite tree value: sharing a
dependency between two jobs is sharing the subtree value, and, names being
unique per run, value equality coincides with Python object identity.  The
tree type can only represent the acyclic graphs the resolver is specified on;
the cyclic case is treated separately (populate_jobsetG below).
-/

/-- A Job as seen by the resolver: name, command and dependency Jobs. -/
inductive PJob where
  | mk (name : String) (command : String) (dependencies : List PJob)

mutual
/-- Decidable equality of PJob (the derive handler does not treat nested
inductives, so it is spelled out). -/
def PJob.decEq : (a b : PJob) → Decidable (a = b)
  | PJob.mk n1 c1 d1, PJob.mk n2 c2 d2 =>
    match String.decEq n1 n2 with
    | isFalse h => isFalse (by intro he; cases he; exact h rfl)
    | isTrue h1 =>
      match String.decEq c1 c2 with
      | isFalse h => isFalse (by intro he; cases he; exact h rfl)
      | isTrue h2 =>
        match PJob.decEqList d1 d2 with
        | isFalse h => isFalse (by intro he; cases he; exact h rfl)
        | isTrue h3 => isTrue (by rw [h1, h2, h3])

/-- Decidable equality of lists of PJob. -/
def PJob.decEqList : (l m : List PJob) → Decidable (l = m)
  | [], [] => isTrue rfl
  | [], _ :: _ => isFalse (by intro h; cases h)
  | _ :: _, [] => isFalse (by intro h; cases h)
  | a :: as, b :: bs =>
    match PJob.decEq a b with
    | isFalse h => isFalse (by intro he; injection he with he1 he2; exact h he1)
    | isTrue h1 =>
      match PJob.decEqList as bs with
      | isFalse h => isFalse (by intro he; injection he with he1 he2; exact h he2)
      | isTrue h2 => isTrue (by rw [h1, h2])
end

instance : DecidableEq PJob := PJob.decEq

def PJob.name : PJob → String
  | .mk n _ _ => n

def PJob.command : PJob → String
  | .mk _ c _ => c

def PJob.dependencies : PJob → List PJob
  | .mk _ _ d => d

/-- Adding a job to the Python set jobset (see insertS). -/
def insertP (j : PJob) (s : List PJob) : List PJob := if j ∈ s then s else s ++ [j]

mutual
/-- run_sge.populate_jobset: add the job, return if it has no dependencies,
otherwise recurse into every dependency with depth + 1. -/
def populate_jobset : PJob → List PJob → Nat → List PJob
  | PJob.mk n c deps, jobset, depth =>
    let js := insertP (PJob.mk n c deps) jobset
    if deps.length = 0 then js
    else populate_deps deps js depth

/-- The for-loop over job.dependencies inside populate_jobset. -/
def populate_deps : List PJob → List PJob → Nat → List PJob
  | [], js, _ => js
  | d :: ds, js, depth => populate_deps ds (populate_jobset d js (depth + 1)) depth
end

/-- run_sge.build_joblist: fold populate_jobset over the root jobs with
depth 1, starting from the empty set. -/
def build_joblist (jobgraph : List PJob) : List PJob :=
  jobgraph.foldl (fun jobset job => populate_jobset job jobset 1) []

mutual
/-- All jobs reachable from a job through dependency edges (the job itself
included), with repetitions. -/
def PJob.reach : PJob → List PJob
  | PJob.mk n c deps => PJob.mk n c deps :: reachList deps

/-- Reachable jobs of a list of jobs. -/
def reachList : List PJob → List PJob
  | [] => []
  | d :: ds => PJob.reach d ++ reachList ds
end

/-- Python errors run_dependency_graph can raise in the modelled prefix. -/
inductive PyErr where
  | typeError
  | attributeError
deriving DecidableEq, Repr

/-- The dependency total dep_count accumulated by run_sge.run_dependency_graph
(inside the if logger: block): the sum of len(job.dependencies) over the
flattened joblist. -/
def total_dep_count (joblist : List PJob) : Nat :=
  (joblist.map (fun j => j.dependencies.length)).sum

/-- compile_jobgroups_from_joblist as actually invoked by run_dependency_graph,
where the list elements are Job objects rather than strings: on the first
element of the first chunk the source evaluates jc + "\n", concatenating a Job
with a string, which is a TypeError under the spec-modelled Job class (it
defines no string concatenation); with no chunk the loop body never runs and
the empty list is returned. -/
def compile_jobgroups_on_jobs (joblist : List PJob) (size : Nat) :
    Except PyErr (List PJob) :=
  match split_seq joblist size with
  | [] => Except.ok []
  | [] :: _ => Except.ok []
  | (_ :: _) :: _ => Except.error PyErr.typeError

/-- The joblist-producing prefix of run_sge.run_dependency_graph: flatten the
graph; accumulate dep_count only under if logger: (so dep_count stays 0
without a logger); the unguarded logger.info call that follows raises
AttributeError when logger is None; when dep_count == 0 the joblist is
replaced by the result of compile_jobgroups_from_joblist.  The value returned
is the joblist that the function would pass on to build_and_submit_jobs. -/
def run_dependency_graph_joblist (jobgraph : List PJob) (hasLogger : Bool)
    (sgegroupsize : Nat) : Except PyErr (List PJob) :=
  let joblist := build_joblist jobgraph
  let dep_count := if hasLogger then total_dep_count joblist else 0
  if hasLogger = false then Except.error PyErr.attributeError
  else if dep_count = 0 then compile_jobgroups_on_jobs joblist sgegroupsize
  else Except.ok joblist

/-!
The cyclic case of the resolver.  A cyclic object graph is not a tree value,
so for it populate_jobset is re-embedded over an explicit graph: a map g from
a job name to the names of its dependencies.  fuel is the recursion budget
(Python recursion is finite-depth); a none result means the budget was
exhausted without the call returning.
-/

/-- Adding a name to the jobset (see insertS). -/
def insertStr (x : String) (s : List String) : List String :=
  if x ∈ s then s else s ++ [x]

/-- run_sge.populate_jobset over an arbitrary, possibly cyclic, dependency
graph g, with recursion budget fuel.  The body is the same as populate_jobset:
add the job, return if it has no dependencies, otherwise recurse into every
dependency; none propagates through the dependency loop. -/
def populate_jobsetG (g : String → List String) :
    Nat → String → List String → Option (List String)
  | 0, _, _ => none
  | fuel + 1, job, jobset =>
    let js := insertStr job jobset
    if (g job).length = 0 then some js
    else (g job).foldl (fun acc d => acc.bind (fun s => populate_jobsetG g fuel d s)) (some js)

/-- An infinite dependency walk starting at a job: what following dependency
edges forever means.  Any dependency cycle reachable from the start yields
one (go to the cycle, then loop). -/
def InfPath (g : String → List String) (start : String) : Prop :=
  ∃ f : Nat → String, f 0 = start ∧ ∀ n, f (n + 1) ∈ g (f n)

/-- The two-job cycle A -> B -> A. -/
def twoCycleG : String → List String :=
  fun n => if n = "A" then ["B"] else if n = "B" then ["A"] else []

/-- The resolver never returns on the two-job cycle, whatever the recursion
budget and whatever jobset has been accumulated: it diverges instead of
raising a cyclic-dependency error (populate_jobset contains no raise and no
visited-marker check at all). -/
def populate_diverges_on_two_cycle : Prop :=
  ∀ fuel s, populate_jobsetG twoCycleG fuel "A" s = none

/-!  Concrete jobs for the diamond example: D depends on B and C, which both
depend on A. -/

def jobA : SJob :=
  { name := "A", command := "cmd-a", queue := none, index := "A", deps := [],
    isGroup := false, tasks := 0, script := "cmd-a", scriptpath := "", out := "", err := "" }

def jobB : SJob :=
  { name := "B", command := "cmd-b", queue := none, index := "B", deps := ["A"],
    isGroup := false, tasks := 0, script := "cmd-b", scriptpath := "", out := "", err := "" }

def jobC : SJob :=
  { name := "C", command := "cmd-c", queue := none, index := "C", deps := ["A"],
    isGroup := false, tasks := 0, script := "cmd-c", scriptpath := "", out := "", err := "" }

def jobD : SJob :=
  { name := "D", command := "cmd-d", queue := none, index := "D", deps := ["B", "C"],
    isGroup := false, tasks := 0, script := "cmd-d", scriptpath := "", out := "", err := "" }

def diamondJobs : List SJob := [jobA, jobB, jobC, jobD]

/-- The all-unsubmitted initial state. -/
def subNone : String → Bool := fun _ => false

/-!  Helper lemmas about the cluster submission adapter. -/

theorem foldl_comma_eq (l : List String) (hl : l ≠ []) (s : String) :
    l.foldl (fun a d => a ++ d ++ ",") s = s ++ commaJoin l ++ "," := by
  induction l generalizing s with
  | nil => cases hl rfl
  | cons d rest ih =>
    cases rest with
    | nil => rfl
    | cons e rest2 =>
      show (e :: rest2).foldl (fun a d => a ++ d ++ ",") (s ++ d ++ ",") = _
      rw [ih (by simp)]
      simp [commaJoin, String.append_assoc]

theorem pyDropLast_comma (x : String) : pyDropLast (x ++ ",") = x := by
  unfold pyDropLast
  rw [String.data_append]
  show String.mk (x.data ++ [',']).dropLast = x
  rw [List.dropLast_concat]

theorem hold_part_eq (a4 : String) (deps : List String) (hne : deps ≠ []) :
    pyDropLast (deps.foldl (fun a d => a ++ d ++ ",") (a4 ++ "-hold_jid ")) =
      a4 ++ ("-hold_jid " ++ commaJoin deps) := by
  rw [foldl_comma_eq deps hne]
  have h : a4 ++ "-hold_jid " ++ commaJoin deps ++ "," =
      (a4 ++ ("-hold_jid " ++ commaJoin deps)) ++ "," := by
    simp [String.append_assoc]
  rw [h, pyDropLast_comma]

theorem qsub_args_eq (job : SJob) :
    qsub_args job =
      " -N " ++ job.name ++ " " ++ " -cwd " ++ " -o " ++ job.out ++ " -e " ++ job.err ++ " " ++
      (if job.isGroup then "-t 1:" ++ toString job.tasks ++ " " else "") ++
      (if 0 < job.deps.length then "-hold_jid " ++ commaJoin job.deps else "") := by
  unfold qsub_args
  rcases hg : job.isGroup <;> rcases hd : job.deps with _ | ⟨d0, drest⟩ <;>
    simp only [hg, hd, if_true, if_false, Bool.false_eq_true, List.length_nil, List.length_cons,
      gt_iff_lt, lt_self_iff_false, Nat.zero_lt_succ] <;>
    (try rw [hold_part_eq _ (d0 :: drest) (by simp)]) <;>
    simp only [String.append_assoc, String.append_empty]

theorem markSubmitted_cons (a : String) (names : List String) (sub : String → Bool) (n : String) :
    markSubmitted names (setSub sub a) n = markSubmitted (a :: names) sub n := by
  simp only [markSubmitted, List.contains_cons, setSub]
  by_cases h1 : n ∈ names
  · simp [h1]
  · have hf : names.contains n = false := by simpa using h1
    rw [hf]
    by_cases h2 : n = a
    · subst h2
      simp
    · have h3 : (a == n) = false := by
        rw [beq_eq_false_iff_ne]
        exact fun he => h2 he.symm
      simp [h2, h3]

theorem submit_safe_jobs_cons (root : String) (sgeargs : Option String)
    (sysRet : String → Int) (job : SJob) (rest : List SJob) (sub : String → Bool) :
    submit_safe_jobs root sgeargs sysRet (job :: rest) sub =
      ({ job with out := job_out_path root job, err := job_err_path root job } ::
          (submit_safe_jobs root sgeargs sysRet rest (setSub sub job.name)).1,
        qsub_cmd sgeargs { job with out := job_out_path root job, err := job_err_path root job } ::
          (submit_safe_jobs root sgeargs sysRet rest (setSub sub job.name)).2.1,
        (submit_safe_jobs root sgeargs sysRet rest (setSub sub job.name)).2.2) := rfl

theorem submit_safe_jobs_spec (root : String) (sgeargs : Option String)
    (sysRet : String → Int) (jobs : List SJob) (sub : String → Bool) :
    (submit_safe_jobs root sgeargs sysRet jobs sub).1 =
        jobs.map (fun job => { job with out := job_out_path root job, err := job_err_path root job })
    ∧ (submit_safe_jobs root sgeargs sysRet jobs sub).2.1 =
        jobs.map (fun job =>
          qsub_cmd sgeargs { job with out := job_out_path root job, err := job_err_path root job })
    ∧ ∀ n, (submit_safe_jobs root sgeargs sysRet jobs sub).2.2 n =
        markSubmitted (jobs.map SJob.name) sub n := by
  induction jobs generalizing sub with
  | nil =>
    refine ⟨rfl, rfl, ?_⟩
    intro n
    simp [submit_safe_jobs, markSubmitted]
  | cons job rest ih =>
    obtain ⟨ih1, ih2, ih3⟩ := ih (setSub sub job.name)
    refine ⟨?_, ?_, ?_⟩
    · rw [submit_safe_jobs_cons, List.map_cons]
      rw [List.cons.injEq]
      exact ⟨rfl, ih1⟩
    · rw [submit_safe_jobs_cons, List.map_cons]
      rw [List.cons.injEq]
      exact ⟨rfl, ih2⟩
    · intro n
      rw [submit_safe_jobs_cons]
      show (submit_safe_jobs root sgeargs sysRet rest (setSub sub job.name)).2.2 n = _
      rw [ih3 n]
      simp only [List.map_cons]
      exact markSubmitted_cons job.name (rest.map SJob.name) sub n

/-- Claim C8: for every job, the submission invocation built by
submit_safe_jobs carries the job name (-N), the working-directory flag
(-cwd), the stdout and stderr redirect paths (-o, -e), a task-range
directive -t 1:tasks exactly when the job is a JobGroup, a -hold_jid
directive with the comma-separated dependency names exactly when the job has
at least one dependency, the environment-propagation flag -V, and the
caller-supplied extra arguments when present; and the commands executed by
submit_safe_jobs are these invocations with the stdout and stderr paths
keyed by the index of each job. -/
theorem claim_C8_submission_invocation (sgeargs : Option String) (job : SJob)
    (root : String) (sysRet : String → Int) (jobs : List SJob) (sub : String → Bool) :
    qsub_cmd sgeargs job =
      QSUB_DEFAULT ++ " -V " ++
        (" -N " ++ job.name ++ " " ++ " -cwd " ++ " -o " ++ job.out ++ " -e " ++ job.err ++ " " ++
          (if job.isGroup then "-t 1:" ++ toString job.tasks ++ " " else "") ++
          (if 0 < job.deps.length then "-hold_jid " ++ commaJoin job.deps else "")) ++
        (match sgeargs with
          | some sa => " " ++ sa ++ " " ++ job.scriptpath
          | none => "")
    ∧ (submit_safe_jobs root sgeargs sysRet jobs sub).2.1 =
        jobs.map (fun j => qsub_cmd sgeargs
          { j with out := job_out_path root j, err := job_err_path root j }) := by
  constructor
  · cases sgeargs with
    | none =>
      simp only [qsub_cmd]
      rw [qsub_args_eq]
      simp only [String.append_assoc, String.append_empty]
    | some sa =>
      simp only [qsub_cmd]
      rw [qsub_args_eq]
      simp only [String.append_assoc, String.append_empty]
  · exact (submit_safe_jobs_spec root sgeargs sysRet jobs sub).2.1

/-- Claim C9: the script file written by build_job_scripts for a job holds the
interpreter directive on its first line, followed by a scheduler shell
directive and then the script text of the job verbatim (embedded unaltered as
a contiguous block, terminated by a newline), and the scriptpath field is set
to the written path, which lives under the jobs directory keyed by the index
and the name of the job.  The script text of a constructor-built Job is its
command text. -/
theorem claim_C9_script_files (root : String) (job : SJob) (jobs : List SJob) :
    (build_job_script_one root job).1 =
      (pjoin (pjoin (pjoin root "sge/jobs") job.index) job.name, script_content job)
    ∧ script_content job = "#!/bin/sh\n" ++ ("#$ -S /bin/bash\n" ++ (job.script ++ "\n"))
    ∧ (script_content job).data.takeWhile (fun c => c != '\n') = "#!/bin/sh".data
    ∧ (script_content job).data =
        ("#!/bin/sh\n#$ -S /bin/bash\n").data ++ job.script.data ++ ['\n']
    ∧ (build_job_script_one root job).2 =
        { job with scriptpath := pjoin (pjoin (pjoin root "sge/jobs") job.index) job.name }
    ∧ (∀ nm c q, (mkJob nm c q).script = c)
    ∧ build_job_scripts root jobs =
        (jobs.map (fun j => (pjoin (pjoin (pjoin root "sge/jobs") j.index) j.name, script_content j)),
          jobs.map (fun j =>
            { j with scriptpath := pjoin (pjoin (pjoin root "sge/jobs") j.index) j.name })) := by
  refine ⟨rfl, ?_, rfl, ?_, rfl, fun nm c q => rfl, rfl⟩
  · show ("#!/bin/sh\n#$ -S /bin/bash\n" ++ job.script) ++ "\n" = _
    have h : ("#!/bin/sh\n#$ -S /bin/bash\n" : String) = "#!/bin/sh\n" ++ "#$ -S /bin/bash\n" := by
      decide
    rw [h]
    simp only [String.append_assoc]
  · show (("#!/bin/sh\n#$ -S /bin/bash\n" ++ job.script) ++ "\n").data = _
    rw [String.data_append, String.data_append]

/-- Claim C10: with sgeargs = None (the default), the qsub command line built
by submit_safe_jobs is independent of the script path of the job (the path is
appended only in the sgeargs-is-not-None branch, together with sgeargs), so
under default arguments the submitted command names no script to execute. -/
theorem claim_C10_scriptpath_needs_sgeargs (job : SJob) (sp1 sp2 : String)
    (root : String) (sysRet : String → Int) (jobs : List SJob) (sub : String → Bool)
    (f : SJob → String) :
    qsub_cmd none { job with scriptpath := sp1 } = qsub_cmd none { job with scriptpath := sp2 }
    ∧ (∀ sa, qsub_cmd (some sa) job = qsub_cmd none job ++ " " ++ sa ++ " " ++ job.scriptpath)
    ∧ (submit_safe_jobs root none sysRet (jobs.map (fun j => { j with scriptpath := f j })) sub).2.1
        = (submit_safe_jobs root none sysRet jobs sub).2.1 := by
  refine ⟨rfl, fun sa => rfl, ?_⟩
  rw [(submit_safe_jobs_spec root none sysRet (jobs.map (fun j => { j with scriptpath := f j })) sub).2.1,
    (submit_safe_jobs_spec root none sysRet jobs sub).2.1, List.map_map]
  rfl

/-- Claim C7: submit_safe_jobs sets the submitted flag of every processed job
to True unconditionally; the exit status returned by the submission command
(os.system) is discarded, so the whole result — updated jobs, executed
command lines and submitted flags — is identical for any two exit-status
behaviours, no error is raised and no failure count exists: exactly one
command is executed per job and nothing else is observable. -/
theorem claim_C7_silent_submission (root : String) (sgeargs : Option String)
    (s1 s2 : String → Int) (jobs : List SJob) (sub : String → Bool) :
    submit_safe_jobs root sgeargs s1 jobs sub = submit_safe_jobs root sgeargs s2 jobs sub
    ∧ (∀ j, j ∈ jobs → (submit_safe_jobs root sgeargs s1 jobs sub).2.2 j.name = true)
    ∧ ((submit_safe_jobs root sgeargs s1 jobs sub).2.1).length = jobs.length := by
  obtain ⟨a1, a2, a3⟩ := submit_safe_jobs_spec root sgeargs s1 jobs sub
  obtain ⟨b1, b2, b3⟩ := submit_safe_jobs_spec root sgeargs s2 jobs sub
  refine ⟨?_, ?_, ?_⟩
  · have h22 : (submit_safe_jobs root sgeargs s1 jobs sub).2.2 =
        (submit_safe_jobs root sgeargs s2 jobs sub).2.2 :=
      funext (fun n => (a3 n).trans (b3 n).symm)
    exact Prod.ext (a1.trans b1.symm) (Prod.ext (a2.trans b2.symm) h22)
  · intro j hj
    rw [a3 j.name]
    have hm : j.name ∈ jobs.map SJob.name := List.mem_map_of_mem _ hj
    simp [markSubmitted, hm]
  · rw [a2]
    simp

/-- Witness for claim C7: one concrete job, one failing exit status. -/
theorem claim_C7_witness :
    (submit_safe_jobs "root" none (fun _ => (1 : Int)) [jobA] subNone).2.2 jobA.name = true :=
  (claim_C7_silent_submission "root" none (fun _ => (1 : Int)) (fun _ => (0 : Int))
    [jobA] subNone).2.1 jobA (by simp)

/-!  Helper lemmas about extract_submittable_jobs. -/

theorem mem_insertS (x j : SJob) (s : List SJob) : x ∈ insertS j s ↔ x ∈ s ∨ x = j := by
  unfold insertS
  by_cases h : j ∈ s
  · rw [if_pos h]
    constructor
    · exact Or.inl
    · rintro (hx | rfl)
      · exact hx
      · exact h
  · rw [if_neg h]
    simp

theorem extract_fold_mem (sub : String → Bool) (waiting acc : List SJob) (x : SJob) :
    x ∈ waiting.foldl
        (fun acc job => if job.deps.countP (fun d => !sub d) = 0 then insertS job acc else acc)
        acc
      ↔ x ∈ acc ∨ (x ∈ waiting ∧ ∀ d ∈ x.deps, sub d = true) := by
  induction waiting generalizing acc with
  | nil => simp
  | cons job rest ih =>
    simp only [List.foldl_cons]
    by_cases hp : job.deps.countP (fun d => !sub d) = 0
    · rw [if_pos hp, ih, mem_insertS]
      constructor
      · rintro ((hx | rfl) | ⟨hr, hd⟩)
        · exact Or.inl hx
        · refine Or.inr ⟨List.mem_cons_self _ _, ?_⟩
          intro d hd
          have hcc := List.countP_eq_zero.mp hp d hd
          simpa using hcc
        · exact Or.inr ⟨List.mem_cons_of_mem _ hr, hd⟩
      · rintro (hx | ⟨hmem, hd⟩)
        · exact Or.inl (Or.inl hx)
        · rcases List.mem_cons.mp hmem with rfl | hr
          · exact Or.inl (Or.inr rfl)
          · exact Or.inr ⟨hr, hd⟩
    · rw [if_neg hp, ih]
      constructor
      · rintro (hx | ⟨hr, hd⟩)
        · exact Or.inl hx
        · exact Or.inr ⟨List.mem_cons_of_mem _ hr, hd⟩
      · rintro (hx | ⟨hmem, hd⟩)
        · exact Or.inl hx
        · rcases List.mem_cons.mp hmem with rfl | hr
          · exfalso
            apply hp
            apply List.countP_eq_zero.mpr
            intro d hdd
            simp [hd d hdd]
          · exact Or.inr ⟨hr, hd⟩

theorem extract_submittable_mem (sub : String → Bool) (waiting : List SJob) (x : SJob) :
    x ∈ extract_submittable_jobs sub waiting ↔
      x ∈ waiting ∧ ∀ d ∈ x.deps, sub d = true := by
  unfold extract_submittable_jobs
  rw [extract_fold_mem]
  simp

/-- Claim C1: extract_submittable_jobs returns exactly the waiting jobs all of
whose dependencies carry submitted == True (so at no iteration of the
submission loop is a job extracted before every one of its dependencies is
submitted); on an empty waiting list it returns the empty list; and on the
diamond graph (D depends on B and C, B and C depend on A) the iterated
submission loop produces the waves [A], then [B, C], then [D]. -/
theorem claim_C1_extract_submittable (sub : String → Bool) (waiting : List SJob) (x : SJob) :
    (x ∈ extract_submittable_jobs sub waiting ↔
        x ∈ waiting ∧ ∀ d ∈ x.deps, sub d = true)
    ∧ extract_submittable_jobs sub [] = []
    ∧ (submit_jobs_waves "root" none (fun _ => (0 : Int)) diamondJobs.length subNone
          diamondJobs []).map (fun r => r.2) =
        some [[jobA], [jobB, jobC], [jobD]] := by
  refine ⟨extract_submittable_mem sub waiting x, rfl, by decide⟩

/-!  Helper lemmas about the dependency-graph resolver. -/

theorem populate_jobset_unfold (n c : String) (dl : List PJob) (s : List PJob) (d : Nat) :
    populate_jobset (PJob.mk n c dl) s d = populate_deps dl (insertP (PJob.mk n c dl) s) d := by
  cases dl with
  | nil => rfl
  | cons a as => rfl

theorem populate_deps_nil (s : List PJob) (d : Nat) : populate_deps [] s d = s := rfl

theorem populate_deps_cons (a : PJob) (as : List PJob) (s : List PJob) (d : Nat) :
    populate_deps (a :: as) s d = populate_deps as (populate_jobset a s (d + 1)) d := rfl

theorem reach_unfold (n c : String) (dl : List PJob) :
    PJob.reach (PJob.mk n c dl) = PJob.mk n c dl :: reachList dl := rfl

theorem reachList_nil : reachList [] = [] := rfl

theorem reachList_cons (a : PJob) (as : List PJob) :
    reachList (a :: as) = PJob.reach a ++ reachList as := rfl

theorem mem_insertP (x j : PJob) (s : List PJob) : x ∈ insertP j s ↔ x ∈ s ∨ x = j := by
  unfold insertP
  by_cases h : j ∈ s
  · rw [if_pos h]
    constructor
    · exact Or.inl
    · rintro (hx | rfl)
      · exact hx
      · exact h
  · rw [if_neg h]
    simp

theorem insertP_nodup (j : PJob) (s : List PJob) (h : s.Nodup) : (insertP j s).Nodup := by
  unfold insertP
  by_cases hm : j ∈ s
  · rw [if_pos hm]
    exact h
  · rw [if_neg hm]
    simp [List.nodup_append, h, hm]

theorem reach_self (j : PJob) : j ∈ PJob.reach j := by
  rcases j with ⟨n, c, dl⟩
  rw [reach_unfold]
  exact List.mem_cons_self _ _

theorem populate_mem_all (N : Nat) :
    (∀ j : PJob, sizeOf j ≤ N → ∀ s d x, x ∈ populate_jobset j s d ↔ x ∈ s ∨ x ∈ PJob.reach j)
    ∧ (∀ l : List PJob, sizeOf l ≤ N →
        ∀ s d x, x ∈ populate_deps l s d ↔ x ∈ s ∨ x ∈ reachList l) := by
  induction N using Nat.strong_induction_on with
  | _ N ih =>
    constructor
    · rintro ⟨n, c, dl⟩ hsz s d x
      have hdl : sizeOf dl < N := by
        have hh : sizeOf dl < sizeOf (PJob.mk n c dl) := by
          simp only [PJob.mk.sizeOf_spec]
          omega
        omega
      rw [populate_jobset_unfold, reach_unfold]
      rw [(ih (sizeOf dl) hdl).2 dl (le_refl _)]
      rw [mem_insertP]
      simp only [List.mem_cons]
      tauto
    · intro l hsz s d x
      cases l with
      | nil =>
        rw [populate_deps_nil, reachList_nil]
        simp
      | cons a as =>
        have ha : sizeOf a < N := by
          have hh : sizeOf a < sizeOf (a :: as) := by
            simp only [List.cons.sizeOf_spec]
            omega
          omega
        have has : sizeOf as < N := by
          have hh : sizeOf as < sizeOf (a :: as) := by
            simp only [List.cons.sizeOf_spec]
            omega
          omega
        rw [populate_deps_cons, reachList_cons]
        rw [(ih (sizeOf as) has).2 as (le_refl _)]
        rw [(ih (sizeOf a) ha).1 a (le_refl _)]
        simp only [List.mem_append]
        tauto

theorem populate_mem (j : PJob) (s : List PJob) (d : Nat) (x : PJob) :
    x ∈ populate_jobset j s d ↔ x ∈ s ∨ x ∈ PJob.reach j :=
  (populate_mem_all (sizeOf j)).1 j (le_refl _) s d x

theorem populate_nodup_all (N : Nat) :
    (∀ j : PJob, sizeOf j ≤ N → ∀ s d, s.Nodup → (populate_jobset j s d).Nodup)
    ∧ (∀ l : List PJob, sizeOf l ≤ N → ∀ s d, s.Nodup → (populate_deps l s d).Nodup) := by
  induction N using Nat.strong_induction_on with
  | _ N ih =>
    constructor
    · rintro ⟨n, c, dl⟩ hsz s d hs
      have hdl : sizeOf dl < N := by
        have hh : sizeOf dl < sizeOf (PJob.mk n c dl) := by
          simp only [PJob.mk.sizeOf_spec]
          omega
        omega
      rw [populate_jobset_unfold]
      exact (ih (sizeOf dl) hdl).2 dl (le_refl _) _ d (insertP_nodup _ _ hs)
    · intro l hsz s d hs
      cases l with
      | nil =>
        rw [populate_deps_nil]
        exact hs
      | cons a as =>
        have ha : sizeOf a < N := by
          have hh : sizeOf a < sizeOf (a :: as) := by
            simp only [List.cons.sizeOf_spec]
            omega
          omega
        have has : sizeOf as < N := by
          have hh : sizeOf as < sizeOf (a :: as) := by
            simp only [List.cons.sizeOf_spec]
            omega
          omega
        rw [populate_deps_cons]
        exact (ih (sizeOf as) has).2 as (le_refl _) _ d
          ((ih (sizeOf a) ha).1 a (le_refl _) s (d + 1) hs)

theorem populate_depth_all (N : Nat) :
    (∀ j : PJob, sizeOf j ≤ N → ∀ s d e, populate_jobset j s d = populate_jobset j s e)
    ∧ (∀ l : List PJob, sizeOf l ≤ N → ∀ s d e, populate_deps l s d = populate_deps l s e) := by
  induction N using Nat.strong_induction_on with
  | _ N ih =>
    constructor
    · rintro ⟨n, c, dl⟩ hsz s d e
      have hdl : sizeOf dl < N := by
        have hh : sizeOf dl < sizeOf (PJob.mk n c dl) := by
          simp only [PJob.mk.sizeOf_spec]
          omega
        omega
      rw [populate_jobset_unfold, populate_jobset_unfold]
      exact (ih (sizeOf dl) hdl).2 dl (le_refl _) _ d e
    · intro l hsz s d e
      cases l with
      | nil => rfl
      | cons a as =>
        have ha : sizeOf a < N := by
          have hh : sizeOf a < sizeOf (a :: as) := by
            simp only [List.cons.sizeOf_spec]
            omega
          omega
        have has : sizeOf as < N := by
          have hh : sizeOf as < sizeOf (a :: as) := by
            simp only [List.cons.sizeOf_spec]
            omega
          omega
        rw [populate_deps_cons, populate_deps_cons]
        rw [(ih (sizeOf a) ha).1 a (le_refl _) s (d + 1) (e + 1)]
        exact (ih (sizeOf as) has).2 as (le_refl _) _ d e

theorem reach_trans_all (N : Nat) :
    (∀ j : PJob, sizeOf j ≤ N →
      ∀ x y, x ∈ PJob.reach j → y ∈ PJob.reach x → y ∈ PJob.reach j)
    ∧ (∀ l : List PJob, sizeOf l ≤ N →
      ∀ x y, x ∈ reachList l → y ∈ PJob.reach x → y ∈ reachList l) := by
  induction N using Nat.strong_induction_on with
  | _ N ih =>
    constructor
    · rintro ⟨n, c, dl⟩ hsz x y hx hy
      have hdl : sizeOf dl < N := by
        have hh : sizeOf dl < sizeOf (PJob.mk n c dl) := by
          simp only [PJob.mk.sizeOf_spec]
          omega
        omega
      rw [reach_unfold] at hx ⊢
      rcases List.mem_cons.mp hx with rfl | hx2
      · rw [reach_unfold] at hy
        exact hy
      · exact List.mem_cons_of_mem _ ((ih (sizeOf dl) hdl).2 dl (le_refl _) x y hx2 hy)
    · intro l hsz x y hx hy
      cases l with
      | nil =>
        rw [reachList_nil] at hx
        cases hx
      | cons a as =>
        have ha : sizeOf a < N := by
          have hh : sizeOf a < sizeOf (a :: as) := by
            simp only [List.cons.sizeOf_spec]
            omega
          omega
        have has : sizeOf as < N := by
          have hh : sizeOf as < sizeOf (a :: as) := by
            simp only [List.cons.sizeOf_spec]
            omega
          omega
        rw [reachList_cons] at hx ⊢
        rcases List.mem_append.mp hx with hxa | hxas
        · exact List.mem_append.mpr (Or.inl ((ih (sizeOf a) ha).1 a (le_refl _) x y hxa hy))
        · exact List.mem_append.mpr (Or.inr ((ih (sizeOf as) has).2 as (le_refl _) x y hxas hy))

theorem reach_trans (j x y : PJob) :
    x ∈ PJob.reach j → y ∈ PJob.reach x → y ∈ PJob.reach j :=
  (reach_trans_all (sizeOf j)).1 j (le_refl _) x y

theorem build_fold_mem (roots : List PJob) (s : List PJob) (x : PJob) :
    x ∈ roots.foldl (fun js j => populate_jobset j js 1) s ↔
      x ∈ s ∨ ∃ r ∈ roots, x ∈ PJob.reach r := by
  induction roots generalizing s with
  | nil => simp
  | cons r rs ih =>
    simp only [List.foldl_cons]
    rw [ih, populate_mem]
    constructor
    · rintro ((hx | hr) | ⟨r2, hr2, hx2⟩)
      · exact Or.inl hx
      · exact Or.inr ⟨r, List.mem_cons_self _ _, hr⟩
      · exact Or.inr ⟨r2, List.mem_cons_of_mem _ hr2, hx2⟩
    · rintro (hx | ⟨r2, hr2, hx2⟩)
      · exact Or.inl (Or.inl hx)
      · rcases List.mem_cons.mp hr2 with rfl | hmem
        · exact Or.inl (Or.inr hx2)
        · exact Or.inr ⟨r2, hmem, hx2⟩

theorem build_joblist_mem (roots : List PJob) (x : PJob) :
    x ∈ build_joblist roots ↔ ∃ r ∈ roots, x ∈ PJob.reach r := by
  unfold build_joblist
  rw [build_fold_mem]
  simp

theorem build_fold_nodup (roots : List PJob) :
    ∀ s : List PJob, s.Nodup → (roots.foldl (fun js j => populate_jobset j js 1) s).Nodup := by
  induction roots with
  | nil => intro s hs; exact hs
  | cons r rs ih =>
    intro s hs
    simp only [List.foldl_cons]
    exact ih _ ((populate_nodup_all (sizeOf r)).1 r (le_refl _) s 1 hs)

/-- Claim C2: build_joblist returns exactly the jobs reachable from the roots
through dependency edges (roots and every transitive dependency), each
distinct job exactly once (the returned list has no duplicates); flattening
the flattened result yields the same set; and the depth counter threaded
through populate_jobset never affects the result. -/
theorem claim_C2_build_joblist (roots : List PJob) (j : PJob) (s : List PJob) (d e : Nat) :
    (build_joblist roots).Nodup
    ∧ (∀ x, x ∈ build_joblist roots ↔ ∃ r ∈ roots, x ∈ PJob.reach r)
    ∧ (∀ x, x ∈ build_joblist (build_joblist roots) ↔ x ∈ build_joblist roots)
    ∧ populate_jobset j s d = populate_jobset j s e := by
  refine ⟨build_fold_nodup roots [] List.nodup_nil, fun x => build_joblist_mem roots x, ?_,
    (populate_depth_all (sizeOf j)).1 j (le_refl _) s d e⟩
  intro x
  rw [build_joblist_mem]
  constructor
  · rintro ⟨r, hr, hx⟩
    rw [build_joblist_mem] at hr ⊢
    obtain ⟨r0, hr0, hrr⟩ := hr
    exact ⟨r0, hr0, reach_trans r0 r x hrr hx⟩
  · intro hx
    exact ⟨x, hx, reach_self x⟩

/-!  Helper lemmas about split_seq and the group compiler. -/

theorem split_seq_empty {α : Type} (size : Nat) : split_seq ([] : List α) size = [] := by
  simp [split_seq]

theorem split_seq_zero {α : Type} (l : List α) : split_seq l 0 = [] := by
  simp [split_seq]

theorem split_seq_cons {α : Type} (l : List α) (size : Nat) (h0 : 0 < size) (hl : l ≠ []) :
    split_seq l size = l.take size :: split_seq (l.drop size) size := by
  have h : ¬(size = 0 ∨ l.isEmpty = true) := by
    push_neg
    refine ⟨by omega, by simp [hl]⟩
  rw [split_seq, dif_neg h]

theorem split_seq_length_aux {α : Type} (G : Nat) (hG : 0 < G) :
    ∀ (n : Nat) (l : List α), l.length ≤ n →
      (split_seq l G).length = (l.length + G - 1) / G := by
  intro n
  induction n with
  | zero =>
    intro l hl
    have hl0 : l = [] := by
      cases l with
      | nil => rfl
      | cons a as => simp at hl
    subst hl0
    rw [split_seq_empty]
    simp only [List.length_nil, Nat.zero_add]
    exact (Nat.div_eq_of_lt (by omega)).symm
  | succ n ih =>
    intro l hl
    by_cases hl0 : l = []
    · subst hl0
      rw [split_seq_empty]
      simp only [List.length_nil, Nat.zero_add]
      exact (Nat.div_eq_of_lt (by omega)).symm
    · rw [split_seq_cons l G hG hl0]
      simp only [List.length_cons]
      have hpos : 0 < l.length := List.length_pos.mpr hl0
      have hdrop : (l.drop G).length ≤ n := by
        rw [List.length_drop]
        omega
      rw [ih (l.drop G) hdrop, List.length_drop]
      by_cases hle : l.length ≤ G
      · have h1 : l.length - G = 0 := by omega
        rw [h1]
        have h2 : (0 + G - 1) / G = 0 := Nat.div_eq_of_lt (by omega)
        have h3 : (l.length + G - 1) / G = 1 := by
          apply Nat.div_eq_of_lt_le
          · omega
          · omega
        rw [h2, h3]
      · push_neg at hle
        have h1 : l.length - G + G - 1 = l.length - 1 := by omega
        have h2 : l.length + G - 1 = (l.length - 1) + G := by omega
        rw [h1, h2, Nat.add_div_right _ hG]

theorem split_seq_chunks {α : Type} (G : Nat) (hG : 0 < G) :
    ∀ (n : Nat) (l : List α), l.length ≤ n →
      ∀ ch ∈ split_seq l G, ch.length ≤ G ∧ ch ≠ [] := by
  intro n
  induction n with
  | zero =>
    intro l hl ch hch
    have hl0 : l = [] := by
      cases l with
      | nil => rfl
      | cons a as => simp at hl
    subst hl0
    rw [split_seq_empty] at hch
    cases hch
  | succ n ih =>
    intro l hl ch hch
    by_cases hl0 : l = []
    · subst hl0
      rw [split_seq_empty] at hch
      cases hch
    · rw [split_seq_cons l G hG hl0] at hch
      have hpos : 0 < l.length := List.length_pos.mpr hl0
      rcases List.mem_cons.mp hch with rfl | hmem
      · constructor
        · rw [List.length_take]
          exact min_le_left _ _
        · intro he
          rw [List.take_eq_nil_iff] at he
          rcases he with h | h
          · omega
          · exact hl0 h
      · exact ih (l.drop G) (by rw [List.length_drop]; omega) ch hmem

theorem joined_cmds_foldl (l : List String) (s : String) :
    l.foldl (fun a c => a ++ c ++ "\n") s = s ++ joined_cmds l := by
  induction l generalizing s with
  | nil =>
    simp only [List.foldl_nil]
    exact (String.append_empty s).symm
  | cons c cs ih =>
    simp only [List.foldl_cons]
    rw [ih]
    have h2 : joined_cmds (c :: cs) = (c ++ "\n") ++ joined_cmds cs := by
      show cs.foldl _ ("" ++ c ++ "\n") = _
      rw [ih]
      rw [String.empty_append]
    rw [h2]
    simp [String.append_assoc]

theorem joined_cmds_append (l1 l2 : List String) :
    joined_cmds (l1 ++ l2) = joined_cmds l1 ++ joined_cmds l2 := by
  show (l1 ++ l2).foldl _ "" = _
  rw [List.foldl_append, joined_cmds_foldl]
  rfl

theorem string_join_cons (a : String) (l : List String) :
    String.join (a :: l) = a ++ String.join l := by
  have key : ∀ (m : List String) (s : String), m.foldl (fun r t => r ++ t) s = s ++ String.join m := by
    intro m
    induction m with
    | nil =>
      intro s
      simp only [List.foldl_nil]
      exact (String.append_empty s).symm
    | cons b bs ih =>
      intro s
      simp only [List.foldl_cons]
      rw [ih]
      have hb : String.join (b :: bs) = b ++ String.join bs := by
        show bs.foldl _ ("" ++ b) = _
        rw [ih, String.empty_append]
      rw [hb]
      simp [String.append_assoc]
  show (a :: l).foldl _ "" = _
  simp only [List.foldl_cons]
  rw [key l ("" ++ a), String.empty_append]

theorem split_seq_joined (G : Nat) (hG : 0 < G) :
    ∀ (n : Nat) (l : List String), l.length ≤ n →
      String.join ((split_seq l G).map joined_cmds) = joined_cmds l := by
  intro n
  induction n with
  | zero =>
    intro l hl
    have hl0 : l = [] := by
      cases l with
      | nil => rfl
      | cons a as => simp at hl
    subst hl0
    rw [split_seq_empty]
    rfl
  | succ n ih =>
    intro l hl
    by_cases hl0 : l = []
    · subst hl0
      rw [split_seq_empty]
      rfl
    · rw [split_seq_cons l G hG hl0]
      simp only [List.map_cons]
      rw [string_join_cons]
      have hpos : 0 < l.length := List.length_pos.mpr hl0
      rw [ih (l.drop G) (by rw [List.length_drop]; omega)]
      rw [← joined_cmds_append, List.take_append_drop]

theorem compile_aux_length (p : String) (chunks : List (List String)) :
    ∀ c, (compile_aux p chunks c).length = chunks.length := by
  induction chunks with
  | nil => intro c; rfl
  | cons ch rest ih =>
    intro c
    simp only [compile_aux, List.length_cons, ih (c + 1)]

theorem compile_aux_names (p : String) (chunks : List (List String)) :
    ∀ c, (compile_aux p chunks c).map SJob.name =
      (List.range chunks.length).map (fun i => p ++ "_" ++ toString (c + i + 1)) := by
  induction chunks with
  | nil => intro c; rfl
  | cons ch rest ih =>
    intro c
    simp only [compile_aux, List.map_cons, List.length_cons, List.range_succ_eq_map,
      List.map_map]
    rw [List.cons.injEq]
    constructor
    · rfl
    · rw [ih (c + 1)]
      apply List.map_congr_left
      intro i _
      show p ++ "_" ++ toString (c + 1 + i + 1) = p ++ "_" ++ toString (c + (i + 1) + 1)
      have harith : c + 1 + i + 1 = c + (i + 1) + 1 := by omega
      rw [harith]

theorem compile_aux_commands (p : String) (chunks : List (List String)) :
    ∀ c, (compile_aux p chunks c).map SJob.command = chunks.map joined_cmds := by
  induction chunks with
  | nil => intro c; rfl
  | cons ch rest ih =>
    intro c
    simp only [compile_aux, List.map_cons, ih (c + 1)]
    rw [List.cons.injEq]
    exact ⟨rfl, rfl⟩

theorem compile_aux_flags (p : String) (chunks : List (List String)) :
    ∀ c, ∀ g ∈ compile_aux p chunks c, g.isGroup = false ∧ g.deps = [] ∧ g.tasks = 0 := by
  induction chunks with
  | nil =>
    intro c g hg
    cases hg
  | cons ch rest ih =>
    intro c g hg
    rcases List.mem_cons.mp hg with rfl | hmem
    · exact ⟨rfl, rfl, rfl⟩
    · exact ih (c + 1) g hmem

/-- Claim C3 (amended): for a list of N command strings, a name prefix and a
group size G > 0, compile_jobgroups_from_joblist produces exactly
ceil(N / G) = (N + G - 1) / G batch jobs, named prefix_1, prefix_2, ...; each
batch job is a plain Job (not a JobGroup, so it carries no task count: isGroup
is false and tasks is 0) whose command is the concatenation of the commands of
its chunk, each terminated by a newline; every chunk bundles at most G and at
least one command, and concatenating the batch commands in group order yields
exactly the concatenation of the original commands in order (no reordering, no
loss). -/
theorem claim_C3_group_compiler (cmds : List String) (p : String) (G : Nat) (hG : 0 < G) :
    (compile_jobgroups_from_joblist cmds p G).length = (cmds.length + G - 1) / G
    ∧ (compile_jobgroups_from_joblist cmds p G).map SJob.name =
        (List.range (split_seq cmds G).length).map (fun i => p ++ "_" ++ toString (i + 1))
    ∧ (compile_jobgroups_from_joblist cmds p G).map SJob.command =
        (split_seq cmds G).map joined_cmds
    ∧ (∀ ch ∈ split_seq cmds G, ch.length ≤ G ∧ ch ≠ [])
    ∧ String.join ((compile_jobgroups_from_joblist cmds p G).map SJob.command) = joined_cmds cmds
    ∧ (∀ g ∈ compile_jobgroups_from_joblist cmds p G,
        g.isGroup = false ∧ g.deps = [] ∧ g.tasks = 0) := by
  unfold compile_jobgroups_from_joblist
  refine ⟨?_, ?_, compile_aux_commands p _ 0, split_seq_chunks G hG cmds.length cmds (le_refl _),
    ?_, compile_aux_flags p _ 0⟩
  · rw [compile_aux_length]
    exact split_seq_length_aux G hG cmds.length cmds (le_refl _)
  · rw [compile_aux_names]
    apply List.map_congr_left
    intro i _
    show p ++ "_" ++ toString (0 + i + 1) = p ++ "_" ++ toString (i + 1)
    have harith : 0 + i + 1 = i + 1 := by omega
    rw [harith]
  · rw [compile_aux_commands]
    exact split_seq_joined G hG cmds.length cmds (le_refl _)

/-- Witness for claim C3 at three commands and group size two. -/
theorem claim_C3_witness :
    (compile_jobgroups_from_joblist ["a", "b", "c"] "jg" 2).length =
        (["a", "b", "c"].length + 2 - 1) / 2
    ∧ (compile_jobgroups_from_joblist ["a", "b", "c"] "jg" 2).map SJob.name =
        (List.range (split_seq ["a", "b", "c"] 2).length).map
          (fun i => "jg" ++ "_" ++ toString (i + 1))
    ∧ (compile_jobgroups_from_joblist ["a", "b", "c"] "jg" 2).map SJob.command =
        (split_seq ["a", "b", "c"] 2).map joined_cmds
    ∧ (∀ ch ∈ split_seq ["a", "b", "c"] 2, ch.length ≤ 2 ∧ ch ≠ [])
    ∧ String.join ((compile_jobgroups_from_joblist ["a", "b", "c"] "jg" 2).map SJob.command) =
        joined_cmds ["a", "b", "c"]
    ∧ (∀ g ∈ compile_jobgroups_from_joblist ["a", "b", "c"] "jg" 2,
        g.isGroup = false ∧ g.deps = [] ∧ g.tasks = 0) :=
  claim_C3_group_compiler ["a", "b", "c"] "jg" 2 (by decide)

/-- Counterexample for claim C3 as frozen: the group compiler builds plain Job
values, not JobGroup values, and records no task count: on the one-command
input the produced job has isGroup = false and tasks = 0 where the claim
demands a JobGroup with task count 1. -/
theorem claim_C3_counterexample :
    (compile_jobgroups_from_joblist ["c1"] "p" 1).map (fun g => (g.isGroup, g.tasks)) =
        [(false, 0)]
    ∧ ¬(∀ g ∈ compile_jobgroups_from_joblist ["c1"] "p" 1,
        g.isGroup = true ∧ g.tasks = 1) := by
  have hsplit : split_seq ["c1"] 1 = [["c1"]] := by
    simp [split_seq]
  have heval : compile_jobgroups_from_joblist ["c1"] "p" 1 =
      [mkJob ("p" ++ "_" ++ toString (0 + 1)) (joined_cmds ["c1"]) (some "0")] := by
    unfold compile_jobgroups_from_joblist
    rw [hsplit]
    rfl
  constructor
  · rw [heval]
    rfl
  · intro hall
    have hx := hall (mkJob ("p" ++ "_" ++ toString (0 + 1)) (joined_cmds ["c1"]) (some "0"))
      (by rw [heval]; exact List.mem_cons_self _ _)
    have hfalse : (false : Bool) = true := hx.1
    cases hfalse

/-!  Helper lemmas for the cyclic resolver case. -/

theorem foldl_bind_none (F : String → List String → Option (List String)) (l : List String) :
    l.foldl (fun acc d => acc.bind (fun s => F d s)) none = none := by
  induction l with
  | nil => rfl
  | cons a as ih =>
    simp only [List.foldl_cons, Option.none_bind]
    exact ih

theorem foldl_bind_exists_none (F : String → List String → Option (List String))
    (l : List String) (x : String) (hx : x ∈ l) (hnone : ∀ s, F x s = none)
    (acc : Option (List String)) :
    l.foldl (fun acc d => acc.bind (fun s => F d s)) acc = none := by
  induction l generalizing acc with
  | nil => cases hx
  | cons a as ih =>
    rcases List.mem_cons.mp hx with rfl | hmem
    · simp only [List.foldl_cons]
      have hb : (acc.bind fun s => F x s) = none := by
        cases acc with
        | none => rfl
        | some s => exact hnone s
      rw [hb]
      exact foldl_bind_none F as
    · simp only [List.foldl_cons]
      exact ih hmem _

theorem populate_none_of_infPath (g : String → List String) :
    ∀ (fuel : Nat) (start : String) (s : List String), InfPath g start →
      populate_jobsetG g fuel start s = none := by
  intro fuel
  induction fuel with
  | zero => intro start s _; rfl
  | succ fuel ih =>
    intro start s hip
    obtain ⟨f, hf0, hstep⟩ := hip
    have h1 : f 1 ∈ g start := by
      rw [← hf0]
      exact hstep 0
    have hne : ¬((g start).length = 0) := by
      intro h0
      rw [List.length_eq_zero] at h0
      rw [h0] at h1
      cases h1
    have heq : populate_jobsetG g (fuel + 1) start s =
        (if (g start).length = 0 then some (insertStr start s)
          else (g start).foldl
            (fun acc d => acc.bind (fun s2 => populate_jobsetG g fuel d s2))
            (some (insertStr start s))) := rfl
    rw [heq, if_neg hne]
    have hnone : ∀ s2, populate_jobsetG g fuel (f 1) s2 = none := by
      intro s2
      exact ih (f 1) s2 ⟨fun n => f (n + 1), rfl, fun n => hstep (n + 1)⟩
    exact foldl_bind_exists_none _ (g start) (f 1) h1 hnone _

/-- The alternating walk A, B, A, B, ... witnesses an infinite dependency
walk in the two-job cycle. -/
theorem twoCycle_infPath : InfPath twoCycleG "A" := by
  refine ⟨fun n => if n % 2 = 0 then "A" else "B", rfl, ?_⟩
  intro n
  by_cases hp : n % 2 = 0
  · have hp1 : (n + 1) % 2 = 1 := by omega
    simp [twoCycleG, hp, hp1]
  · have hp0 : (n + 1) % 2 = 0 := by omega
    simp [twoCycleG, hp, hp0]

/-- Claim C5 (amended): on every job graph with an infinite dependency walk
from the start job — in particular whenever a dependency cycle is reachable
from it — the recursive traversal of the resolver exhausts every recursion
budget without returning: it does not terminate, and in particular it raises
no cyclic-dependency error (populate_jobset carries no visited or in-progress
marker and contains no raise statement at all; the only error Python would
eventually produce is the generic interpreter recursion-limit error). -/
theorem claim_C5_cycle_nontermination (g : String → List String) (start : String)
    (s : List String) (fuel : Nat) (h : InfPath g start) :
    populate_jobsetG g fuel start s = none :=
  populate_none_of_infPath g fuel start s h

/-- Witness for claim C5: the two-job cycle with a budget of 1000. -/
theorem claim_C5_witness : populate_jobsetG twoCycleG 1000 "A" [] = none :=
  claim_C5_cycle_nontermination twoCycleG "A" [] 1000 twoCycle_infPath

/-- Counterexample for claim C5 as frozen: on the concrete cyclic graph
A -> B -> A the traversal never produces any outcome — neither a result nor a
raised cyclic-dependency error — under any recursion budget, contradicting
the claim that a distinct cyclic-dependency error is raised. -/
theorem claim_C5_counterexample :
    populate_diverges_on_two_cycle
    ∧ twoCycleG "A" = ["B"] ∧ twoCycleG "B" = ["A"] := by
  refine ⟨?_, rfl, rfl⟩
  intro fuel s
  exact populate_none_of_infPath twoCycleG fuel "A" s twoCycle_infPath

/-!  Evaluation of the joblist-producing prefix of run_dependency_graph. -/

theorem compile_on_jobs_two : compile_jobgroups_on_jobs
    [PJob.mk "j1" "c1" [], PJob.mk "j2" "c2" []] 10000 = Except.error PyErr.typeError := by
  unfold compile_jobgroups_on_jobs
  rw [split_seq_cons _ 10000 (by omega) (by simp)]
  rfl

/-- Claim C4 (code bug): the branch condition of run_dependency_graph matches
the claim — the group compiler is invoked exactly when the total dependency
count of the flattened joblist is zero (and with at least one dependency the
flattened jobs are passed on to submission individually and ungrouped) — but
the invocation itself cannot replace the joblist with job groups: the chunk
loop evaluates jc + "\n" with jc a Job object, a TypeError under the
spec-modelled Job class, so on a dependency-free graph of two jobs the run
aborts instead of grouping; a graph with one dependency is passed through
ungrouped, and with logger = None the function fails earlier with
AttributeError on the unguarded logger.info call. -/
theorem claim_C4_grouping :
    run_dependency_graph_joblist
        [PJob.mk "j1" "c1" [], PJob.mk "j2" "c2" []] true 10000 =
      Except.error PyErr.typeError
    ∧ run_dependency_graph_joblist
        [PJob.mk "f" "cf" [PJob.mk "n" "cn" []]] true 10000 =
      Except.ok [PJob.mk "f" "cf" [PJob.mk "n" "cn" []], PJob.mk "n" "cn" []]
    ∧ run_dependency_graph_joblist
        [PJob.mk "j1" "c1" [], PJob.mk "j2" "c2" []] false 10000 =
      Except.error PyErr.attributeError := by
  refine ⟨?_, rfl, rfl⟩
  exact compile_on_jobs_two

/-!  Helper lemmas for the submission loop: job heights and graph depth. -/

theorem foldrMax_le (l : List Nat) (b : Nat) (h : ∀ x ∈ l, x ≤ b) : l.foldr max 0 ≤ b := by
  induction l with
  | nil => exact Nat.zero_le b
  | cons a as ih =>
    simp only [List.foldr_cons]
    exact max_le (h a (List.mem_cons_self _ _))
      (ih (fun x hx => h x (List.mem_cons_of_mem _ hx)))

theorem le_foldrMax (l : List Nat) (x : Nat) (h : x ∈ l) : x ≤ l.foldr max 0 := by
  induction l with
  | nil => cases h
  | cons a as ih =>
    simp only [List.foldr_cons]
    rcases List.mem_cons.mp h with rfl | hm
    · exact le_max_left _ _
    · exact le_trans (ih hm) (le_max_right _ _)

theorem foldrMax_mem (l : List Nat) : l.foldr max 0 = 0 ∨ l.foldr max 0 ∈ l := by
  induction l with
  | nil => exact Or.inl rfl
  | cons a as ih =>
    simp only [List.foldr_cons]
    rcases le_total a (as.foldr max 0) with hle | hle
    · rw [max_eq_right hle]
      rcases ih with h0 | hm
      · exact Or.inl h0
      · exact Or.inr (List.mem_cons_of_mem _ hm)
    · rw [max_eq_left hle]
      exact Or.inr (List.mem_cons_self _ _)

theorem findJob_eq_self (jobs : List SJob) (hN : (jobs.map SJob.name).Nodup) :
    ∀ j ∈ jobs, findJob jobs j.name = some j := by
  induction jobs with
  | nil => intro j hj; cases hj
  | cons x rest ih =>
    intro j hj
    simp only [List.map_cons, List.nodup_cons] at hN
    obtain ⟨hx, hrest⟩ := hN
    rcases List.mem_cons.mp hj with rfl | hmem
    · show List.find? _ (j :: rest) = some j
      rw [List.find?_cons]
      have hbeq : (j.name == j.name) = true := by simp
      rw [hbeq]
    · show List.find? _ (x :: rest) = some j
      rw [List.find?_cons]
      have hbeq : (x.name == j.name) = false := by
        rw [beq_eq_false_iff_ne]
        intro he
        apply hx
        rw [he]
        exact List.mem_map_of_mem _ hmem
      rw [hbeq]
      exact ih hrest j hmem

theorem heightF_succ (jobs : List SJob) (fuel : Nat) (n : String) :
    heightF jobs (fuel + 1) n =
      (match findJob jobs n with
        | none => 0
        | some j => 1 + (j.deps.map (heightF jobs fuel)).foldr max 0) := rfl

theorem heightF_succ_found (jobs : List SJob) (fuel : Nat) (j : SJob)
    (hN : (jobs.map SJob.name).Nodup) (hj : j ∈ jobs) :
    heightF jobs (fuel + 1) j.name = 1 + (j.deps.map (heightF jobs fuel)).foldr max 0 := by
  rw [heightF_succ, findJob_eq_self jobs hN j hj]

theorem heightF_le_fuel (jobs : List SJob) : ∀ fuel n, heightF jobs fuel n ≤ fuel := by
  intro fuel
  induction fuel with
  | zero => intro n; exact Nat.le_refl 0
  | succ f ih =>
    intro n
    rw [heightF_succ]
    cases hf : findJob jobs n with
    | none => exact Nat.zero_le _
    | some j =>
      show 1 + (j.deps.map (heightF jobs f)).foldr max 0 ≤ f + 1
      have hfold : ((j.deps.map (heightF jobs f)).foldr max 0) ≤ f := by
        apply foldrMax_le
        intro x hx
        obtain ⟨d, _, hdx⟩ := List.mem_map.mp hx
        rw [← hdx]
        exact ih d
      omega

theorem heightF_stable (jobs : List SJob) (rank : String → Nat)
    (hN : (jobs.map SJob.name).Nodup)
    (hC : ∀ j ∈ jobs, ∀ d ∈ j.deps, ∃ k ∈ jobs, k.name = d)
    (hR : ∀ j ∈ jobs, ∀ d ∈ j.deps, rank d < rank j.name) :
    ∀ K, ∀ j ∈ jobs, rank j.name ≤ K → ∀ f g, rank j.name < f → rank j.name < g →
      heightF jobs f j.name = heightF jobs g j.name := by
  intro K
  induction K using Nat.strong_induction_on with
  | _ K ih =>
    intro j hj hK f g hf hg
    cases f with
    | zero => omega
    | succ f0 =>
      cases g with
      | zero => omega
      | succ g0 =>
        rw [heightF_succ_found jobs f0 j hN hj, heightF_succ_found jobs g0 j hN hj]
        have hmaps : j.deps.map (heightF jobs f0) = j.deps.map (heightF jobs g0) := by
          apply List.map_congr_left
          intro d hd
          obtain ⟨jd, hjd, hname⟩ := hC j hj d hd
          have hrd : rank d < rank j.name := hR j hj d hd
          subst hname
          exact ih (rank jd.name) (by omega) jd hjd (le_refl _) f0 g0 (by omega) (by omega)
        rw [hmaps]

theorem jobHeight_unfold (jobs : List SJob) (rank : String → Nat)
    (hN : (jobs.map SJob.name).Nodup)
    (hC : ∀ j ∈ jobs, ∀ d ∈ j.deps, ∃ k ∈ jobs, k.name = d)
    (hR : ∀ j ∈ jobs, ∀ d ∈ j.deps, rank d < rank j.name)
    (hB : ∀ j ∈ jobs, rank j.name < jobs.length) :
    ∀ j ∈ jobs, jobHeight jobs j.name =
      1 + (j.deps.map (fun d => jobHeight jobs d)).foldr max 0 := by
  intro j hj
  have hpos : jobs ≠ [] := by
    intro he
    rw [he] at hj
    cases hj
  obtain ⟨L0, hL⟩ : ∃ L0, jobs.length = L0 + 1 := by
    cases hlen : jobs.length with
    | zero =>
      rw [List.length_eq_zero] at hlen
      exact absurd hlen hpos
    | succ L0 => exact ⟨L0, rfl⟩
  show heightF jobs jobs.length j.name = _
  rw [hL, heightF_succ_found jobs L0 j hN hj]
  have hmaps : j.deps.map (heightF jobs L0) = j.deps.map (fun d => jobHeight jobs d) := by
    apply List.map_congr_left
    intro d hd
    obtain ⟨jd, hjd, hname⟩ := hC j hj d hd
    have hrd : rank d < rank j.name := hR j hj d hd
    have hbj : rank j.name < jobs.length := hB j hj
    subst hname
    show heightF jobs L0 jd.name = heightF jobs jobs.length jd.name
    exact heightF_stable jobs rank hN hC hR (rank jd.name) jd hjd (le_refl _)
      L0 jobs.length (by omega) (by omega)
  rw [hmaps]

theorem jobHeight_pos (jobs : List SJob) (hN : (jobs.map SJob.name).Nodup) :
    ∀ j ∈ jobs, 1 ≤ jobHeight jobs j.name := by
  intro j hj
  have hpos : jobs ≠ [] := by
    intro he
    rw [he] at hj
    cases hj
  obtain ⟨L0, hL⟩ : ∃ L0, jobs.length = L0 + 1 := by
    cases hlen : jobs.length with
    | zero =>
      rw [List.length_eq_zero] at hlen
      exact absurd hlen hpos
    | succ L0 => exact ⟨L0, rfl⟩
  show 1 ≤ heightF jobs jobs.length j.name
  rw [hL, heightF_succ_found jobs L0 j hN hj]
  omega

theorem jobHeight_le_length (jobs : List SJob) (n : String) :
    jobHeight jobs n ≤ jobs.length :=
  heightF_le_fuel jobs jobs.length n

theorem depth_le_length (jobs : List SJob) : depthOf jobs ≤ jobs.length := by
  apply foldrMax_le
  intro x hx
  obtain ⟨j, _, hjx⟩ := List.mem_map.mp hx
  rw [← hjx]
  exact jobHeight_le_length jobs j.name

theorem jobHeight_le_depth (jobs : List SJob) : ∀ j ∈ jobs, jobHeight jobs j.name ≤ depthOf jobs := by
  intro j hj
  exact le_foldrMax _ _ (List.mem_map_of_mem _ hj)

theorem height_descend (jobs : List SJob) (rank : String → Nat)
    (hN : (jobs.map SJob.name).Nodup)
    (hC : ∀ j ∈ jobs, ∀ d ∈ j.deps, ∃ k ∈ jobs, k.name = d)
    (hR : ∀ j ∈ jobs, ∀ d ∈ j.deps, rank d < rank j.name)
    (hB : ∀ j ∈ jobs, rank j.name < jobs.length) :
    ∀ k, 1 ≤ k → (∃ j ∈ jobs, jobHeight jobs j.name = k + 1) →
      ∃ j ∈ jobs, jobHeight jobs j.name = k := by
  rintro k hk ⟨j, hj, hh⟩
  rw [jobHeight_unfold jobs rank hN hC hR hB j hj] at hh
  have hfold : (j.deps.map (fun d => jobHeight jobs d)).foldr max 0 = k := by omega
  have hmem : k ∈ j.deps.map (fun d => jobHeight jobs d) := by
    rcases foldrMax_mem (j.deps.map (fun d => jobHeight jobs d)) with h0 | hm
    · omega
    · rw [hfold] at hm
      exact hm
  obtain ⟨d, hd, hdk⟩ := List.mem_map.mp hmem
  obtain ⟨jd, hjd, hname⟩ := hC j hj d hd
  subst hname
  exact ⟨jd, hjd, hdk⟩

theorem height_attained (jobs : List SJob) (rank : String → Nat)
    (hN : (jobs.map SJob.name).Nodup)
    (hC : ∀ j ∈ jobs, ∀ d ∈ j.deps, ∃ k ∈ jobs, k.name = d)
    (hR : ∀ j ∈ jobs, ∀ d ∈ j.deps, rank d < rank j.name)
    (hB : ∀ j ∈ jobs, rank j.name < jobs.length) :
    ∀ h, 1 ≤ h → h ≤ depthOf jobs → ∃ j ∈ jobs, jobHeight jobs j.name = h := by
  have hdd : depthOf jobs = (jobs.map (fun j => jobHeight jobs j.name)).foldr max 0 := rfl
  have htop : 1 ≤ depthOf jobs → ∃ j ∈ jobs, jobHeight jobs j.name = depthOf jobs := by
    intro hd
    rcases foldrMax_mem (jobs.map (fun j => jobHeight jobs j.name)) with h0 | hm
    · rw [hdd] at hd
      omega
    · obtain ⟨j, hj, hjh⟩ := List.mem_map.mp hm
      refine ⟨j, hj, ?_⟩
      rw [hdd]
      exact hjh
  have main : ∀ m h2, h2 + m = depthOf jobs → 1 ≤ h2 →
      ∃ j ∈ jobs, jobHeight jobs j.name = h2 := by
    intro m
    induction m with
    | zero =>
      intro h2 he h1
      rw [Nat.add_zero] at he
      subst he
      exact htop h1
    | succ m ih =>
      intro h2 he h1
      have hup := ih (h2 + 1) (by omega) (by omega)
      exact height_descend jobs rank hN hC hR hB h2 h1 hup
  intro h h1 hle
  exact main (depthOf jobs - h) h (by omega) h1

theorem bool_eq_of_iff {a b : Bool} (h : a = true ↔ b = true) : a = b := by
  cases a <;> cases b <;> simp_all

theorem subAt_true_iff (jobs : List SJob) (k : Nat) (n : String) :
    subAt jobs k n = true ↔ ∃ j ∈ jobs, j.name = n ∧ jobHeight jobs j.name ≤ k := by
  unfold subAt
  rw [List.any_eq_true]
  constructor
  · rintro ⟨j, hj, hcond⟩
    rw [Bool.and_eq_true] at hcond
    obtain ⟨h1, h2⟩ := hcond
    exact ⟨j, hj, by simpa using h1, by simpa using h2⟩
  · rintro ⟨j, hj, h1, h2⟩
    refine ⟨j, hj, ?_⟩
    rw [h1] at h2 ⊢
    simp [h2]

theorem subAt_eq_height_le (jobs : List SJob) (k : Nat) (d : String) (jd : SJob)
    (hjd : jd ∈ jobs) (hname : jd.name = d) :
    (subAt jobs k d = true) ↔ jobHeight jobs d ≤ k := by
  rw [subAt_true_iff]
  constructor
  · rintro ⟨j2, hj2, hn2, hh2⟩
    rw [hn2] at hh2
    exact hh2
  · intro h
    refine ⟨jd, hjd, hname, ?_⟩
    rw [hname]
    exact h

theorem markSubmitted_true_iff (names : List String) (sub : String → Bool) (n : String) :
    markSubmitted names sub n = true ↔ n ∈ names ∨ sub n = true := by
  unfold markSubmitted
  by_cases hc : n ∈ names
  · simp [hc]
  · simp [hc]

theorem extract_fold_eq (sub : String → Bool) :
    ∀ (w acc : List SJob), acc.Nodup → (∀ x ∈ acc, x ∉ w) → w.Nodup →
      w.foldl (fun acc job =>
          if job.deps.countP (fun d => !sub d) = 0 then insertS job acc else acc) acc
        = acc ++ w.filter (fun job => decide (job.deps.countP (fun d => !sub d) = 0)) := by
  intro w
  induction w with
  | nil =>
    intro acc _ _ _
    simp
  | cons job rest ih =>
    intro acc hacc hdisj hw
    rw [List.nodup_cons] at hw
    obtain ⟨hjr, hrest⟩ := hw
    simp only [List.foldl_cons]
    by_cases hp : job.deps.countP (fun d => !sub d) = 0
    · rw [if_pos hp]
      have hja : job ∉ acc := fun hmem => hdisj job hmem (List.mem_cons_self _ _)
      have hins : insertS job acc = acc ++ [job] := by
        unfold insertS
        rw [if_neg hja]
      have hnodup2 : (acc ++ [job]).Nodup := by
        simp [List.nodup_append, hacc, hja]
      have hdisj2 : ∀ x ∈ acc ++ [job], x ∉ rest := by
        intro x hx hxr
        rcases List.mem_append.mp hx with hxa | hxj
        · exact hdisj x hxa (List.mem_cons_of_mem _ hxr)
        · rw [List.mem_singleton] at hxj
          subst hxj
          exact hjr hxr
      rw [hins, ih (acc ++ [job]) hnodup2 hdisj2 hrest]
      rw [List.filter_cons, if_pos (by simp [hp])]
      rw [List.append_assoc]
      rfl
    · rw [if_neg hp]
      have hdisj2 : ∀ x ∈ acc, x ∉ rest := by
        intro x hx hxr
        exact hdisj x hx (List.mem_cons_of_mem _ hxr)
      rw [ih acc hacc hdisj2 hrest]
      rw [List.filter_cons, if_neg (by simp [hp])]

theorem extract_eq_filter (sub : String → Bool) (w : List SJob) (hw : w.Nodup) :
    extract_submittable_jobs sub w =
      w.filter (fun job => decide (job.deps.countP (fun d => !sub d) = 0)) := by
  unfold extract_submittable_jobs
  rw [extract_fold_eq sub w [] List.nodup_nil (by intro x hx; cases hx) hw]
  simp

theorem removeFirst_eq_filter (j : SJob) : ∀ w : List SJob, w.Nodup →
    removeFirst j w = w.filter (fun x => decide (x ≠ j)) := by
  intro w
  induction w with
  | nil => intro _; rfl
  | cons x xs ih =>
    intro hw
    rw [List.nodup_cons] at hw
    obtain ⟨hx, hxs⟩ := hw
    show (if x = j then xs else x :: removeFirst j xs) = _
    by_cases he : x = j
    · rw [if_pos he, List.filter_cons, if_neg (by simp [he])]
      subst he
      symm
      rw [List.filter_eq_self]
      intro a ha
      simp
      intro hax
      subst hax
      exact hx ha
    · rw [if_neg he, List.filter_cons, if_pos (by simp [he]), ih hxs]

theorem removeAll_eq_filter : ∀ (s w : List SJob), w.Nodup →
    removeAll w s = w.filter (fun x => decide (x ∉ s)) := by
  intro s
  induction s with
  | nil =>
    intro w hw
    show w = _
    symm
    rw [List.filter_eq_self]
    intro a _
    simp
  | cons j s2 ih =>
    intro w hw
    rw [show removeAll w (j :: s2) = removeAll (removeFirst j w) s2 from rfl]
    have hwn2 : (removeFirst j w).Nodup := by
      rw [removeFirst_eq_filter j w hw]
      exact hw.filter _
    rw [ih (removeFirst j w) hwn2, removeFirst_eq_filter j w hw, List.filter_filter]
    apply List.filter_congr
    intro x hx
    by_cases h1 : x = j <;> by_cases h2 : x ∈ s2 <;> simp [h1, h2]

theorem submit_sub_eq (root : String) (sgeargs : Option String) (sysRet : String → Int)
    (l : List SJob) (sub : String → Bool) :
    (submit_safe_jobs root sgeargs sysRet l sub).2.2 = markSubmitted (l.map SJob.name) sub :=
  funext (fun n => (submit_safe_jobs_spec root sgeargs sysRet l sub).2.2 n)

theorem extract_at_subAt (jobs : List SJob) (rank : String → Nat)
    (hN : (jobs.map SJob.name).Nodup)
    (hC : ∀ j ∈ jobs, ∀ d ∈ j.deps, ∃ k ∈ jobs, k.name = d)
    (hR : ∀ j ∈ jobs, ∀ d ∈ j.deps, rank d < rank j.name)
    (hB : ∀ j ∈ jobs, rank j.name < jobs.length) (k : Nat) :
    extract_submittable_jobs (subAt jobs k) (waitAt jobs k) =
      jobs.filter (fun j => decide (jobHeight jobs j.name = k + 1)) := by
  have hnodup : jobs.Nodup := List.Nodup.of_map _ hN
  have hwn : (waitAt jobs k).Nodup := hnodup.filter _
  rw [extract_eq_filter _ _ hwn]
  show (jobs.filter _).filter _ = _
  rw [List.filter_filter]
  apply List.filter_congr
  intro j hj
  have hiff1 : (j.deps.countP (fun d => !subAt jobs k d) = 0) ↔
      ∀ d ∈ j.deps, subAt jobs k d = true := by
    rw [List.countP_eq_zero]
    constructor
    · intro h d hd
      have hh := h d hd
      simpa using hh
    · intro h d hd
      simp [h d hd]
  have hiff2 : (∀ d ∈ j.deps, subAt jobs k d = true) ↔ jobHeight jobs j.name ≤ k + 1 := by
    rw [jobHeight_unfold jobs rank hN hC hR hB j hj]
    constructor
    · intro h
      have hfold : (j.deps.map (fun d => jobHeight jobs d)).foldr max 0 ≤ k := by
        apply foldrMax_le
        intro x hx
        obtain ⟨d, hd, hdx⟩ := List.mem_map.mp hx
        obtain ⟨jd, hjd, hname⟩ := hC j hj d hd
        rw [← hdx]
        exact (subAt_eq_height_le jobs k d jd hjd hname).mp (h d hd)
      omega
    · intro h d hd
      obtain ⟨jd, hjd, hname⟩ := hC j hj d hd
      apply (subAt_eq_height_le jobs k d jd hjd hname).mpr
      have hmem : jobHeight jobs d ∈ j.deps.map (fun d => jobHeight jobs d) :=
        List.mem_map_of_mem _ hd
      have hle := le_foldrMax _ _ hmem
      omega
  by_cases h2 : k < jobHeight jobs j.name
  · by_cases h1 : j.deps.countP (fun d => !subAt jobs k d) = 0
    · have hle := hiff2.mp (hiff1.mp h1)
      have heq : jobHeight jobs j.name = k + 1 := by omega
      simp [h1, h2, heq]
    · have hgt : ¬jobHeight jobs j.name ≤ k + 1 := fun hle => h1 (hiff1.mpr (hiff2.mpr hle))
      have hne : ¬jobHeight jobs j.name = k + 1 := by omega
      simp [h1, h2, hne]
  · have hne : ¬jobHeight jobs j.name = k + 1 := by omega
    simp [h2, hne]

theorem markSubmitted_wave (jobs : List SJob) (k : Nat) :
    markSubmitted ((jobs.filter (fun j => decide (jobHeight jobs j.name = k + 1))).map SJob.name)
      (subAt jobs k) = subAt jobs (k + 1) := by
  funext n
  apply bool_eq_of_iff
  rw [markSubmitted_true_iff, subAt_true_iff, subAt_true_iff]
  constructor
  · rintro (hmem | ⟨j, hj, hn, hh⟩)
    · obtain ⟨j, hjf, hname⟩ := List.mem_map.mp hmem
      rw [List.mem_filter] at hjf
      obtain ⟨hjm, hjh⟩ := hjf
      have hh : jobHeight jobs j.name = k + 1 := by simpa using hjh
      exact ⟨j, hjm, hname, by omega⟩
    · exact ⟨j, hj, hn, by omega⟩
  · rintro ⟨j, hj, hn, hh⟩
    by_cases h2 : jobHeight jobs j.name = k + 1
    · left
      rw [← hn]
      apply List.mem_map_of_mem
      rw [List.mem_filter]
      exact ⟨hj, by simp [h2]⟩
    · right
      exact ⟨j, hj, hn, by omega⟩

theorem removeAll_wave (jobs : List SJob) (hN : (jobs.map SJob.name).Nodup) (k : Nat) :
    removeAll (waitAt jobs k)
        (jobs.filter (fun j => decide (jobHeight jobs j.name = k + 1))) =
      waitAt jobs (k + 1) := by
  have hnodup : jobs.Nodup := List.Nodup.of_map _ hN
  have hwn : (waitAt jobs k).Nodup := hnodup.filter _
  rw [removeAll_eq_filter _ _ hwn]
  show (jobs.filter _).filter _ = jobs.filter _
  rw [List.filter_filter]
  apply List.filter_congr
  intro j hj
  by_cases h1 : jobHeight jobs j.name = k + 1
  · have hmem : j ∈ jobs.filter (fun j => decide (jobHeight jobs j.name = k + 1)) := by
      rw [List.mem_filter]
      exact ⟨hj, by simp [h1]⟩
    have hne : ¬(k + 1 < jobHeight jobs j.name) := by omega
    simp [hmem, hne]
  · by_cases h2 : k < jobHeight jobs j.name
    · have hmem : j ∉ jobs.filter (fun j => decide (jobHeight jobs j.name = k + 1)) := by
        rw [List.mem_filter]
        rintro ⟨_, hdec⟩
        rw [decide_eq_true_eq] at hdec
        exact h1 hdec
      have hgt : k + 1 < jobHeight jobs j.name := by omega
      simp [hmem, h2, hgt]
    · have hne : ¬(k + 1 < jobHeight jobs j.name) := by omega
      simp [h2, hne]

theorem wavesFrom_cons (jobs : List SJob) (k m : Nat) :
    wavesFrom jobs k (m + 1) =
      jobs.filter (fun j => decide (jobHeight jobs j.name = k + 1)) :: wavesFrom jobs (k + 1) m := by
  unfold wavesFrom
  rw [List.range_succ_eq_map, List.map_cons, List.map_map]
  rw [List.cons.injEq]
  constructor
  · rfl
  · apply List.map_congr_left
    intro i _
    show jobs.filter (fun j => decide (jobHeight jobs j.name = k + (i + 1) + 1)) = _
    have harith : k + (i + 1) + 1 = k + 1 + i + 1 := by omega
    rw [harith]

theorem wavesFrom_length (jobs : List SJob) (k m : Nat) :
    (wavesFrom jobs k m).length = m := by
  unfold wavesFrom
  rw [List.length_map, List.length_range]

theorem loop_invariant (root : String) (sgeargs : Option String) (sysRet : String → Int)
    (jobs : List SJob) (rank : String → Nat)
    (hN : (jobs.map SJob.name).Nodup)
    (hC : ∀ j ∈ jobs, ∀ d ∈ j.deps, ∃ k ∈ jobs, k.name = d)
    (hR : ∀ j ∈ jobs, ∀ d ∈ j.deps, rank d < rank j.name)
    (hB : ∀ j ∈ jobs, rank j.name < jobs.length) :
    ∀ (m k fuel : Nat) (acc : List (List SJob)) (sub : String → Bool),
      k + m = depthOf jobs → m ≤ fuel → sub = subAt jobs k →
      ∃ subF, submit_jobs_waves root sgeargs sysRet fuel sub (waitAt jobs k) acc =
          some (subF, acc ++ wavesFrom jobs k m)
        ∧ subF = subAt jobs (depthOf jobs) := by
  intro m
  induction m with
  | zero =>
    intro k fuel acc sub hk hf hsub
    have hempty : waitAt jobs k = [] := by
      unfold waitAt
      rw [List.filter_eq_nil_iff]
      intro j hj
      have hle := jobHeight_le_depth jobs j hj
      simp
      omega
    subst hsub
    have hkdep : k = depthOf jobs := by omega
    refine ⟨subAt jobs k, ?_, by rw [hkdep]⟩
    rw [hempty]
    have hwaves : wavesFrom jobs k 0 = [] := rfl
    rw [hwaves, List.append_nil]
    cases fuel with
    | zero => rfl
    | succ f => rfl
  | succ m ih =>
    intro k fuel acc sub hk hf hsub
    cases fuel with
    | zero => omega
    | succ f =>
      have hkd : k < depthOf jobs := by omega
      obtain ⟨jw, hjw, hjwh⟩ :=
        height_attained jobs rank hN hC hR hB (k + 1) (by omega) (by omega)
      have hnonempty : waitAt jobs k ≠ [] := by
        intro hemp
        have hmem : jw ∈ waitAt jobs k := by
          unfold waitAt
          rw [List.mem_filter]
          exact ⟨hjw, by simp [hjwh]⟩
        rw [hemp] at hmem
        cases hmem
      subst hsub
      have hunfold : submit_jobs_waves root sgeargs sysRet (f + 1) (subAt jobs k)
          (waitAt jobs k) acc =
          (if (waitAt jobs k).isEmpty then some (subAt jobs k, acc)
            else submit_jobs_waves root sgeargs sysRet f
              ((submit_safe_jobs root sgeargs sysRet
                  (extract_submittable_jobs (subAt jobs k) (waitAt jobs k)) (subAt jobs k)).2.2)
              (removeAll (waitAt jobs k)
                (extract_submittable_jobs (subAt jobs k) (waitAt jobs k)))
              (acc ++ [extract_submittable_jobs (subAt jobs k) (waitAt jobs k)])) := rfl
      have hnotempty : ¬((waitAt jobs k).isEmpty = true) := by
        rw [List.isEmpty_iff]
        exact hnonempty
      rw [hunfold, if_neg hnotempty]
      rw [extract_at_subAt jobs rank hN hC hR hB k]
      rw [submit_sub_eq, markSubmitted_wave jobs k, removeAll_wave jobs hN k]
      obtain ⟨subF, hloop, hsubF⟩ :=
        ih (k + 1) f
          (acc ++ [jobs.filter (fun j => decide (jobHeight jobs j.name = k + 1))])
          (subAt jobs (k + 1)) (by omega) (by omega) rfl
      refine ⟨subF, ?_, hsubF⟩
      rw [hloop, wavesFrom_cons, List.append_assoc]
      rfl

/-- Claim C6: for a finite collection of jobs whose name-keyed dependency
graph is acyclic (witnessed by a rank function decreasing along dependency
edges, bounded by the number of jobs — such a rank exists exactly when the
graph is acyclic), closed under dependencies, with unique names and all
initially unsubmitted, the submit_jobs loop terminates within jobs.length
iterations with the waiting list empty (a some result is produced only by
exiting on an empty waiting list), every job submitted, and the number of
executed waves equal to the depth of the dependency graph (the largest
dependency-chain height). -/
theorem claim_C6_submission_loop (jobs : List SJob) (rank : String → Nat)
    (root : String) (sgeargs : Option String) (sysRet : String → Int)
    (hN : (jobs.map SJob.name).Nodup)
    (hC : ∀ j ∈ jobs, ∀ d ∈ j.deps, ∃ k ∈ jobs, k.name = d)
    (hR : ∀ j ∈ jobs, ∀ d ∈ j.deps, rank d < rank j.name)
    (hB : ∀ j ∈ jobs, rank j.name < jobs.length) :
    ∃ subF waves,
      submit_jobs_waves root sgeargs sysRet jobs.length (fun _ => false) jobs [] =
        some (subF, waves)
      ∧ (∀ j ∈ jobs, subF j.name = true)
      ∧ waves.length = depthOf jobs := by
  have hsub0 : (fun _ => false) = subAt jobs 0 := by
    funext n
    symm
    rw [Bool.eq_false_iff]
    intro htrue
    obtain ⟨j, hj, _, hh⟩ := (subAt_true_iff jobs 0 n).mp htrue
    have hpos := jobHeight_pos jobs hN j hj
    omega
  have hwait0 : waitAt jobs 0 = jobs := by
    unfold waitAt
    rw [List.filter_eq_self]
    intro j hj
    have hpos := jobHeight_pos jobs hN j hj
    simp
    omega
  obtain ⟨subF, hloop, hsubF⟩ :=
    loop_invariant root sgeargs sysRet jobs rank hN hC hR hB (depthOf jobs) 0 jobs.length []
      (fun _ => false) (by omega) (depth_le_length jobs) hsub0
  rw [hwait0] at hloop
  refine ⟨subF, wavesFrom jobs 0 (depthOf jobs), ?_, ?_, wavesFrom_length jobs 0 (depthOf jobs)⟩
  · rw [hloop]
    rw [List.nil_append]
  · intro j hj
    rw [hsubF]
    apply (subAt_true_iff jobs (depthOf jobs) j.name).mpr
    exact ⟨j, hj, rfl, jobHeight_le_depth jobs j hj⟩

/-- Witness for claim C6: the diamond graph with an explicit topological
rank. -/
theorem claim_C6_witness :
    ∃ subF waves,
      submit_jobs_waves "root" none (fun _ => (0 : Int)) diamondJobs.length (fun _ => false)
          diamondJobs [] = some (subF, waves)
      ∧ (∀ j ∈ diamondJobs, subF j.name = true)
      ∧ waves.length = depthOf diamondJobs :=
  claim_C6_submission_loop diamondJobs
    (fun n => if n = "A" then 0 else if n = "D" then 2 else 1) "root" none (fun _ => (0 : Int))
    (by decide) (by decide) (by decide) (by decide)
